import Mathlib

/-!
Verification of the journal crawling and metadata-extraction pipeline
(`scrap_journal/journal_crawler_v3.py`) against its specification.

Strings are modelled as lists of characters (`Str`); all referenced Python
string operations are shallowly embedded below next to the line numbers of
the source they are translated from.  ASCII-only character class tests are
used, matching the ASCII inputs handled by the program's regexes.
-/

set_option maxRecDepth 100000

abbrev Str := List Char

/-- Characters removed by `sanitize_filename` (the regex character class
`[\\/().,*?:"<>|]` on line 23 of the source). -/
def badChar (c : Char) : Bool :=
  c = '\\' || c = '/' || c = '(' || c = ')' || c = '.' || c = ',' ||
  c = '*' || c = '?' || c = ':' || c = '"' || c = '<' || c = '>' || c = '|'

/-- ASCII whitespace recognized by the `\s` class of Python's `re` module. -/
def isSpaceCh (c : Char) : Bool :=
  c = ' ' || c = '\t' || c = '\n' || c = '\r' || c = '\x0b' || c = '\x0c'

/-- Replace every maximal whitespace run by one underscore, as
`re.sub(r'\s+', "_", ...)` does on line 24.  The boolean flag records
whether the scan is currently inside a whitespace run. -/
def collapseWSGo : Bool → Str → Str
  | _, [] => []
  | inRun, c :: cs =>
    if isSpaceCh c then
      if inRun then collapseWSGo true cs else '_' :: collapseWSGo true cs
    else c :: collapseWSGo false cs

def collapseWS (s : Str) : Str := collapseWSGo false s

/-- Embedding of `sanitize_filename` (source lines 20-28): drop the invalid characters,
collapse whitespace runs to underscores, and truncate overlong results.
The source's guard is `len > 100` but the slice taken is `[:200]`, so the
result is bounded by 200 characters. -/
def sanitize_filename (filename : Str) : Str :=
  let s := filename.filter (fun c => !(badChar c))
  let s := collapseWS s
  if s.length > 100 then s.take 200 else s

/-- Decimal digit string of `n` (Python `str(n)` for a natural number),
written with explicit fuel so that the definition is structurally recursive
and evaluates by kernel reduction. -/
def decDigitsF : Nat → Nat → Str
  | 0, n => [Nat.digitChar (n % 10)]
  | f + 1, n =>
    if n < 10 then [Nat.digitChar n]
    else decDigitsF f (n / 10) ++ [Nat.digitChar (n % 10)]

def decDigits (n : Nat) : Str := decDigitsF n n

/-- Python `f"{n:02d}"` (line 410): zero-pad the decimal representation to
width two. -/
def pad2 (n : Nat) : Str := if n < 10 then '0' :: decDigits n else decDigits n

/-- Embedding of `os.path.join` for POSIX paths, one component (lines 273, 411). -/
def joinPath (a b : Str) : Str :=
  if b.head? = some '/' then b
  else if a = [] || a.getLast? = some '/' then a ++ b
  else a ++ '/' :: b

/-- Line 410: `f"{(i+1):02d}-{sanitize_filename(topic)}.pdf"`. -/
def provisionalFilename (i : Nat) (topic : Str) : Str :=
  pad2 (i + 1) ++ '-' :: (sanitize_filename topic ++ ".pdf".data)

/-- Line 411: the provisional save path of record `i`. -/
def provisionalPath (dir : Str) (i : Nat) (topic : Str) : Str :=
  joinPath dir (provisionalFilename i topic)

/-- One row of crawl output: the dict built at source lines 414-422. -/
structure ArticleRecord where
  title : Str
  page_number : Str
  authors : Str
  abstract : Str
  file_path : Str
  keywords : Str
  email : Str
deriving DecidableEq, Repr

/-- The per-field fragment lists collected at lines 309-368 (already reduced
to their text/href payloads, in document order). -/
structure FieldLists where
  types : List Str
  pages : List Str
  authors : List Str
  downloads : List Str
  abstracts : List (Str × Str)
deriving DecidableEq, Repr

/-- Lines 317-324: topic fragments whose stripped text is empty are dropped. -/
def extractTopics (texts : List Str) : List Str := texts.filter (fun t => !(t.isEmpty))

/-- Line 393: `all_topics[i]['text'] if i < len(all_topics) else f"Article {i+1}"`. -/
def topicAt (topics : List Str) (i : Nat) : Str :=
  if i < topics.length then topics.getD i [] else "Article ".data ++ decDigits (i + 1)

/-- Line 394: the article-type value of row `i`, defaulting to
`"Original Research"`.  It is computed by the loop but not stored in the
record dict. -/
def articleTypeAt (fields : FieldLists) (i : Nat) : Str :=
  if i < fields.types.length then fields.types.getD i [] else "Original Research".data

/-- Line 397: the download href of row `i`, defaulting to the empty string. -/
def downloadLinkAt (fields : FieldLists) (i : Nat) : Str :=
  if i < fields.downloads.length then fields.downloads.getD i [] else []

/-- Lines 400-404: the cleaned abstract of row `i`.  `cleanAbstract` stands for
`extract_abstract` (lines 99-106), whose HTML stripping is done by the parsing
library and is outside the embedding's scope (spec section 1). -/
def abstractTextAt (cleanAbstract : Str → Str) (fields : FieldLists) (i : Nat) : Str :=
  if i < fields.abstracts.length then cleanAbstract (fields.abstracts.getD i ([], [])).2 else []

/-- Loop body of lines 391-425: the record of row `i`. -/
def correlateRecord (cleanAbstract : Str → Str) (dir : Str) (topics : List Str)
    (fields : FieldLists) (i : Nat) : ArticleRecord :=
  { title := topicAt topics i
    page_number := if i < fields.pages.length then fields.pages.getD i [] else []
    authors := if i < fields.authors.length then fields.authors.getD i [] else []
    abstract := abstractTextAt cleanAbstract fields i
    file_path := provisionalPath dir i (topicAt topics i)
    keywords := []
    email := [] }

/-- Lines 382-425: the Record Correlator emits one record per topic, by
iterating `i` over `range(len(all_topics))`. -/
def correlate (cleanAbstract : Str → Str) (dir : Str) (topics : List Str)
    (fields : FieldLists) : List ArticleRecord :=
  (List.range topics.length).map (correlateRecord cleanAbstract dir topics fields)

def lowerStr (s : Str) : Str := s.map Char.toLower

/-- Python substring containment (`needle in haystack`). -/
def containsSub (needle hay : Str) : Bool := hay.tails.any (fun t => needle.isPrefixOf t)

/-- Embedding of `get_file_extension_from_url` (lines 40-49): strip the query string, and
keep the lower-cased text after the last dot when it is `pdf` or `docx`. -/
def get_file_extension_from_url (url : Str) : Option Str :=
  let path := url.takeWhile (fun c => c != '?')
  if path.contains '.' then
    let ext := lowerStr ((path.reverse.takeWhile (fun c => c != '.')).reverse)
    if ext = "pdf".data ∨ ext = "docx".data then some ext else none
  else none

/-- Embedding of `get_file_extension_from_content_type` (lines 52-62): substring tests on
the lower-cased content-type header; the empty header yields nothing. -/
def get_file_extension_from_content_type (content_type : Str) : Option Str :=
  if content_type = [] then none
  else
    let ct := lowerStr content_type
    if containsSub "application/pdf".data ct then some "pdf".data
    else if containsSub
        "application/vnd.openxmlformats-officedocument.wordprocessingml.document".data ct then
      some "docx".data
    else if containsSub "application/msword".data ct then some "docx".data
    else none

/-- Line 78: `file_ext = content_ext or url_ext or 'pdf'`. -/
def resolveFileExt (content_type url : Str) : Str :=
  match get_file_extension_from_content_type content_type with
  | some e => e
  | none =>
    match get_file_extension_from_url url with
    | some e => e
    | none => "pdf".data

/-- Embedding of `os.path.splitext` for POSIX paths: split off the extension at the last
dot, provided that dot lies after the last separator and the basename does not
consist of leading dots only (mirrors `posixpath._splitext`, computed here on
the reversed character list). -/
def splitext (p : Str) : Str × Str :=
  let r := p.reverse
  let e := r.takeWhile (fun c => c != '.' && c != '/')
  match r.drop e.length with
  | '.' :: after =>
    if (after.takeWhile (fun c => c != '/')).any (fun c => c != '.') then
      (after.reverse, '.' :: e.reverse)
    else (p, [])
  | _ => (p, [])

/-- Lines 80-83: rewrite the save path's extension when it does not already
match the resolved extension case-insensitively. -/
def updateExtension (save_path file_ext : Str) : Str :=
  let be := splitext save_path
  if lowerStr be.2 = '.' :: file_ext then save_path else be.1 ++ '.' :: file_ext

/-- The result dict of `download_file` (lines 94 and 96). -/
structure DownloadOutcome where
  success : Bool
  path : Str
  url : Str
  error : Option Str
  extension : Option Str
deriving DecidableEq, Repr

/-- Embedding of `download_file` (lines 65-96).  The network side is summarized by
`attempt`: `.ok content_type` is a completed response carrying the given
content-type header, `.error e` is any exception raised inside the `try`
block.  In both cases the function returns an outcome — the `except` clause
on lines 95-96 converts every exception into a failure dict. -/
def download_file (url save_path : Str) (attempt : Except Str Str) : DownloadOutcome :=
  match attempt with
  | .error e =>
    { success := false, path := save_path, url := url, error := some e, extension := none }
  | .ok content_type =>
    let file_ext := resolveFileExt content_type url
    { success := true, path := updateExtension save_path file_ext, url := url,
      error := none, extension := some file_ext }

/-- Lines 464-476: a completed future rewrites `metadata[idx]['file_path']`
only when its outcome is successful. -/
def setFilePath : List ArticleRecord → Nat → Str → List ArticleRecord
  | [], _, _ => []
  | r :: rs, 0, p => { r with file_path := p } :: rs
  | r :: rs, n + 1, p => r :: setFilePath rs n p

def processOutcome (metadata : List ArticleRecord) (idx : Nat) (result : DownloadOutcome) :
    List ArticleRecord :=
  if result.success then setFilePath metadata idx result.path else metadata

/-- Python `str.split(sep)` for a one-character separator, keeping empty
pieces (used by lines 432 and 436 with `'/'`). -/
def splitChar (c : Char) : Str → List Str
  | [] => [[]]
  | x :: xs =>
    if x = c then [] :: splitChar c xs
    else
      match splitChar c xs with
      | [] => [[x]]
      | t :: ts => (x :: t) :: ts

/-- Python `sep.join(parts)` for a one-character separator. -/
def joinChar (c : Char) : List Str → Str
  | [] => []
  | [p] => p
  | p :: q :: rest => p ++ c :: joinChar c (q :: rest)

/-- Lines 427-440: resolution of a download href against the page URL.  An
href starting with `http` is kept; a leading `/` is resolved against
`'/'.join(url.split('/')[:3])`; anything else against
`'/'.join(url.split('/')[:-1]) + '/'`. -/
def resolve_download_link (url download_link : Str) : Str :=
  if "http".data.isPrefixOf download_link then download_link
  else if download_link.head? = some '/' then
    joinChar '/' ((splitChar '/' url).take 3) ++ download_link
  else
    joinChar '/' ((splitChar '/' url).dropLast) ++ '/' :: download_link

def digitVal (c : Char) : Nat := c.toNat - '0'.toNat

/-- Numeric value of a digit string (proof-side inverse of `decDigits`). -/
def valD (l : Str) : Nat := l.foldl (fun a c => a * 10 + digitVal c) 0

/-- The prefix contributed by the directory in `os.path.join(dir, name)` for a
name that does not start with a separator. -/
def dirPrefix (dir : Str) : Str :=
  if dir = [] then [] else if dir.getLast? = some '/' then dir else dir ++ ['/']

/-- The file path of record `i` at the end of the run: the provisional path
when no successful download rewrote it (lines 419, 439), or the rewritten path
of the successful outcome (lines 80-83, 467-470). -/
def finalPathAt (dir topic : Str) (i : Nat) (ef : Option Str) : Str :=
  match ef with
  | none => provisionalPath dir i topic
  | some e => updateExtension (provisionalPath dir i topic) e

/-- The file path of record `i` at the end of the run, driven by the download
result: `none` when no successful download rewrote the record (lines 419,
439, 477-478), or the content-type header and URL of the successful download,
whose resolved extension rewrites the path (lines 73-83, 467-470). -/
def finalPathFromDownload (dir topic : Str) (i : Nat) (dl : Option (Str × Str)) : Str :=
  match dl with
  | none => provisionalPath dir i topic
  | some (ct, u) => updateExtension (provisionalPath dir i topic) (resolveFileExt ct u)

/-- Line 269: `max_workers = 8`, the concurrency limit handed to the
`ThreadPoolExecutor` on line 448. -/
def max_workers : Nat := 8

/-- Modelled from the spec: the worker pool itself is
`concurrent.futures.ThreadPoolExecutor` (standard-library code, not part of
this repository).  Spec sections 4.4 and 5 describe it as a fixed-size pool
that pulls a pending task only while fewer than `limit` downloads are in
flight, and completes in-flight tasks in any order.  A pool configuration is
the number of pending, in-flight and completed download tasks. -/
structure PoolState where
  pending : Nat
  inFlight : Nat
  completed : Nat
deriving DecidableEq, Repr

/-- One scheduling step of the bounded pool: start a pending task (only below
the limit) or finish an in-flight task. -/
inductive PoolStep (limit : Nat) : PoolState → PoolState → Prop where
  | start (p f c : Nat) : f < limit → PoolStep limit ⟨p + 1, f, c⟩ ⟨p, f + 1, c⟩
  | finish (p f c : Nat) : PoolStep limit ⟨p, f + 1, c⟩ ⟨p, f, c + 1⟩

/-- Pool configurations reachable from an initial configuration. -/
inductive PoolReach (limit : Nat) (init : PoolState) : PoolState → Prop where
  | refl : PoolReach limit init init
  | step {s s' : PoolState} : PoolReach limit init s → PoolStep limit s s' →
      PoolReach limit init s'

def isWordChar (c : Char) : Bool := c.isAlphanum || c = '_'

/-- Character class `[A-Za-z0-9._%+-]` (local part of the email regex,
line 176). -/
def isLocalChar (c : Char) : Bool :=
  c.isAlphanum || c = '.' || c = '_' || c = '%' || c = '+' || c = '-'

/-- Character class `[A-Za-z0-9.-]` (domain part of the email regex). -/
def isDomainChar (c : Char) : Bool := c.isAlphanum || c = '.' || c = '-'

/-- Character class `[A-Z|a-z]` of the email regex — note that it contains
the literal bar character. -/
def isTldChar (c : Char) : Bool := c.isAlpha || c = '|'

def isWordAt (s : Str) (i : Nat) : Bool :=
  match s.get? i with
  | some c => isWordChar c
  | none => false

/-- Python `\b`: a word boundary between positions `i - 1` and `i` (positions
outside the string count as non-word). -/
def boundaryAt (s : Str) (i : Nat) : Bool :=
  (if i = 0 then false else isWordAt s (i - 1)) != isWordAt s i

/-- Length of the maximal run of characters satisfying `p` from index `i`. -/
def runLen (p : Char → Bool) (s : Str) (i : Nat) : Nat :=
  ((s.drop i).takeWhile p).length

/-- Match `\.[A-Z|a-z]{2,}\b` at position `p`, trying the longest repetition
first (greedy with backtracking); returns the exclusive end index. -/
def tryTld (s : Str) (p : Nat) : Option Nat :=
  (List.range (runLen isTldChar s p + 1)).reverse.findSome? fun t =>
    if 2 ≤ t then (if boundaryAt s (p + t) then some (p + t) else none) else none

/-- Match `[A-Za-z0-9.-]+\.[A-Z|a-z]{2,}\b` at position `j`, consuming the
domain-run prefix greedily and backtracking to find the literal dot. -/
def tryDomain (s : Str) (j : Nat) : Option Nat :=
  (List.range (runLen isDomainChar s j + 1)).reverse.findSome? fun k =>
    if 1 ≤ k then
      match s.get? (j + k) with
      | some '.' => tryTld s (j + k + 1)
      | _ => none
    else none

/-- Attempt the whole email pattern
`\b[A-Za-z0-9._%+-]+@[A-Za-z0-9.-]+\.[A-Z|a-z]{2,}\b` at position `i` of the
text; the `@` cannot backtrack into the local-part run because `@` is not in
the local character class. -/
def tryEmail (s : Str) (i : Nat) : Option Nat :=
  if boundaryAt s i then
    let L := runLen isLocalChar s i
    if 1 ≤ L then
      match s.get? (i + L) with
      | some '@' => tryDomain s (i + L + 1)
      | _ => none
    else none
  else none

/-- Scan of `re.findall`: try the pattern at each position left to right and
continue after each non-overlapping match (fuel is one more than the text
length, enough because the scan index strictly increases). -/
def scanEmails (s : Str) : Nat → Nat → List Str
  | 0, _ => []
  | fuel + 1, i =>
    if i < s.length then
      match tryEmail s i with
      | some e => ((s.drop i).take (e - i)) :: scanEmails s fuel e
      | none => scanEmails s fuel (i + 1)
    else []

/-- Line 177: `re.findall(email_pattern, text)`. -/
def findEmails (s : Str) : List Str := scanEmails s (s.length + 1) 0

/-- Lines 179-183: the accumulation loop that keeps an email only when its
lower-cased form is not already among the lower-cased kept emails. -/
def uniqueEmailsLoop : List Str → List Str → List Str
  | unique_emails, [] => unique_emails
  | unique_emails, email :: rest =>
    if lowerStr email ∈ unique_emails.map lowerStr then uniqueEmailsLoop unique_emails rest
    else uniqueEmailsLoop (unique_emails ++ [email]) rest

/-- Embedding of `extract_emails_from_text` (lines 173-185). -/
def extract_emails_from_text (text : Str) : List Str :=
  uniqueEmailsLoop [] (findEmails text)

/-- Written from the claim's words: keep each match at its first occurrence
(in scan order, with its original casing) and drop every later match whose
lower-cased form has already been seen. -/
def firstOccurrenceDedup (seen : List Str) : List Str → List Str
  | [] => []
  | x :: xs =>
    if lowerStr x ∈ seen then firstOccurrenceDedup seen xs
    else x :: firstOccurrenceDedup (lowerStr x :: seen) xs

/-- Match a literal string at the head of `s`, returning the remainder. -/
def stripLit : Str → Str → Option Str
  | [], s => some s
  | _ :: _, [] => none
  | c :: cs, x :: xs => if x = c then stripLit cs xs else none

/-- Optional literal `s?`: consuming the `s` when present is equivalent to
the regex's greedy-then-backtrack behaviour here, because the pattern
continues with `\s*:` and an unconsumed `s` can satisfy neither `\s` nor
`:`. -/
def matchOptS (s : Str) : Str :=
  match s with
  | 's' :: rest => rest
  | _ => s

/-- Match `\s*:`, returning the remainder after the colon (the greedy `\s*`
cannot backtrack usefully because `:` is not whitespace). -/
def matchColon (s : Str) : Option Str :=
  match s.dropWhile isSpaceCh with
  | ':' :: rest => some rest
  | _ => none

/-- Prefix `keywords?\s*:` of the first keyword pattern (line 195), on the
already lower-cased text. -/
def matchP1 (s : Str) : Option Str :=
  (stripLit "keyword".data s).bind (fun r => matchColon (matchOptS r))

/-- Prefix `key\s+words?\s*:` of the second keyword pattern (line 196). -/
def matchP2 (s : Str) : Option Str :=
  (stripLit "key".data s).bind fun r =>
    match r with
    | c :: cs =>
      if isSpaceCh c then
        (stripLit "word".data (cs.dropWhile isSpaceCh)).bind
          (fun r2 => matchColon (matchOptS r2))
      else none
    | [] => none

/-- Prefix `indexing terms\s*:` of the third keyword pattern (line 197). -/
def matchP3 (s : Str) : Option Str :=
  (stripLit "indexing terms".data s).bind matchColon

/-- The terminator `(?:\n\n|\n[A-Z]|\nabstract|\nintroduction)` under
`re.IGNORECASE`: a newline followed by a newline or any ASCII letter (the
`\nabstract` and `\nintroduction` alternatives are subsumed by `\n[A-Z]`
once the case-insensitive flag makes `[A-Z]` match every letter). -/
def termAt (s : Str) : Bool :=
  match s with
  | '\n' :: c :: _ => c = '\n' || c.isAlpha
  | _ => false

/-- Lazy capture `(.+?)` before the terminator: the shortest non-empty
prefix of `rest` after which the terminator matches (`re.DOTALL` lets the
capture cross newlines). -/
def findCapture (rest : Str) : Option Str :=
  (List.range (rest.length + 1)).findSome? fun k =>
    if 1 ≤ k then (if termAt (rest.drop k) then some (rest.take k) else none) else none

/-- Search of `re.search` for `prefix-pattern (.+?) terminator`: scan positions left to
right; at each position where the prefix matches, succeed with the lazy
capture, else keep scanning. -/
def searchPat (pre : Str → Option Str) : Str → Option Str
  | [] => none
  | c :: cs =>
    match pre (c :: cs) with
    | some rest =>
      match findCapture rest with
      | some cap => some cap
      | none => searchPat pre cs
    | none => searchPat pre cs

/-- Python `str.strip()`. -/
def pyStrip (s : Str) : Str :=
  ((s.dropWhile isSpaceCh).reverse.dropWhile isSpaceCh).reverse

/-- Embedding of `re.split(r'[,;]\s*|\n', ...)` (line 208) when `nl` is true, and
`re.split(r'[,;]\s*', ...)` (lines 223, 228) when `nl` is false, written with
fuel so that the recursion through `dropWhile` stays structural. -/
def splitKwAux : Nat → Bool → Str → List Str
  | 0, _, _ => [[]]
  | _ + 1, _, [] => [[]]
  | fuel + 1, nl, c :: cs =>
    if c = ',' || c = ';' then [] :: splitKwAux fuel nl (cs.dropWhile isSpaceCh)
    else if nl && c = '\n' then [] :: splitKwAux fuel nl cs
    else
      match splitKwAux fuel nl cs with
      | [] => [[c]]
      | t :: ts => (c :: t) :: ts

def splitKeywords (nl : Bool) (s : Str) : List Str := splitKwAux (s.length + 1) nl s

/-- Lines 208-213 (and 223-224, 228-229): split, strip each piece, drop the
empty ones. -/
def cleanKeywords (nl : Bool) (kt : Str) : List Str :=
  ((splitKeywords nl kt).map pyStrip).filter (fun k => !k.isEmpty)

/-- Line 218: `re.search(r'keywords?\s*:', line.lower())` viewed as a
boolean. -/
def hasKwColon : Str → Bool
  | [] => false
  | c :: cs => (matchP1 (c :: cs)).isSome || hasKwColon cs

/-- Lines 216-229: the line-by-line fallback scan.  On a line matching
`keywords?\s*:`, return the cleaned remainder after its first colon when
non-empty; otherwise return the cleaned next line when non-blank; otherwise
keep scanning; after the loop return the empty list (line 231). -/
def fallbackLines : List Str → List Str
  | [] => []
  | line :: rest =>
    if hasKwColon (lowerStr line) then
      if line.contains ':' &&
          !(pyStrip ((line.dropWhile (fun c => c != ':')).drop 1)).isEmpty then
        cleanKeywords false (pyStrip ((line.dropWhile (fun c => c != ':')).drop 1))
      else
        match rest with
        | next :: _ =>
          if !(pyStrip next).isEmpty then cleanKeywords false (pyStrip next)
          else fallbackLines rest
        | [] => fallbackLines rest
    else fallbackLines rest

/-- Embedding of `extract_keywords_from_text` (lines 188-231): the three block patterns are
searched in order on the lower-cased text; the first match's capture is
stripped, split and cleaned; otherwise the original-cased lines are scanned by
the fallback. -/
def extract_keywords_from_text (text : Str) : List Str :=
  let text_lower := lowerStr text
  match searchPat matchP1 text_lower with
  | some cap => cleanKeywords true (pyStrip cap)
  | none =>
    match searchPat matchP2 text_lower with
    | some cap => cleanKeywords true (pyStrip cap)
    | none =>
      match searchPat matchP3 text_lower with
      | some cap => cleanKeywords true (pyStrip cap)
      | none => fallbackLines (splitChar '\n' text)

theorem collapseWSGo_mem : ∀ (b : Bool) (l : Str) (c : Char), c ∈ collapseWSGo b l →
    c = '_' ∨ (c ∈ l ∧ isSpaceCh c = false)
  | b, [], c, h => by simp [collapseWSGo] at h
  | b, x :: xs, c, h => by
    simp only [collapseWSGo] at h
    by_cases hx : isSpaceCh x
    · simp only [hx, if_true] at h
      have step : c ∈ collapseWSGo true xs ∨ c = '_' := by
        cases b with
        | true => simp only [if_true] at h; exact Or.inl h
        | false =>
          simp only [Bool.false_eq_true, if_false] at h
          rcases List.mem_cons.mp h with rfl | h'
          · exact Or.inr rfl
          · exact Or.inl h'
      rcases step with h' | rfl
      · rcases collapseWSGo_mem true xs c h' with h'' | ⟨h1, h2⟩
        · exact Or.inl h''
        · exact Or.inr ⟨List.mem_cons_of_mem _ h1, h2⟩
      · exact Or.inl rfl
    · simp only [hx, if_false] at h
      rcases List.mem_cons.mp h with rfl | h'
      · exact Or.inr ⟨List.mem_cons_self _ _, by simpa using hx⟩
      · rcases collapseWSGo_mem false xs c h' with h'' | ⟨h1, h2⟩
        · exact Or.inl h''
        · exact Or.inr ⟨List.mem_cons_of_mem _ h1, h2⟩

theorem collapseWSGo_spaces (ws rest : Str) (hws : ∀ c ∈ ws, isSpaceCh c = true) :
    collapseWSGo true (ws ++ rest) = collapseWSGo true rest := by
  induction ws with
  | nil => rfl
  | cons w ws ih =>
    have hw : isSpaceCh w = true := hws w (List.mem_cons_self _ _)
    simp only [List.cons_append, collapseWSGo, hw, if_true]
    exact ih (fun c hc => hws c (List.mem_cons_of_mem _ hc))

theorem collapseWSGo_true_eq_false (rest : Str)
    (hrest : ∀ c, rest.head? = some c → isSpaceCh c = false) :
    collapseWSGo true rest = collapseWSGo false rest := by
  cases rest with
  | nil => rfl
  | cons r rs =>
    have hr : isSpaceCh r = false := hrest r rfl
    simp [collapseWSGo, hr]

theorem sanitize_filename_mem (t : Str) (c : Char) (h : c ∈ sanitize_filename t) :
    badChar c = false ∧ isSpaceCh c = false := by
  unfold sanitize_filename at h
  simp only at h
  have h' : c ∈ collapseWS (t.filter fun c => !(badChar c)) := by
    split at h
    · exact List.take_subset _ _ h
    · exact h
  rcases collapseWSGo_mem false _ c h' with rfl | ⟨h1, h2⟩
  · exact ⟨by decide, by decide⟩
  · have hb := List.of_mem_filter h1
    exact ⟨by simpa using hb, h2⟩

theorem sanitize_filename_le (t : Str) : (sanitize_filename t).length ≤ 200 := by
  unfold sanitize_filename
  simp only
  split
  · simp [Nat.min_le_left 200 _]
  · omega

/-- C2: for every title string, the sanitized filename component contains none
of the characters `\ / ( ) . , * ? : " < > |`, contains no whitespace because
every whitespace run is replaced by a single underscore (third conjunct, stated
on the whitespace-collapsing pass itself), and has length at most 200. -/
theorem sanitize_filename_spec (title : Str) :
    (∀ c ∈ sanitize_filename title, badChar c = false ∧ isSpaceCh c = false) ∧
    (sanitize_filename title).length ≤ 200 ∧
    (∀ ws rest : Str, ws ≠ [] → (∀ c ∈ ws, isSpaceCh c = true) →
      (∀ c, rest.head? = some c → isSpaceCh c = false) →
      collapseWS (ws ++ rest) = '_' :: collapseWS rest) := by
  refine ⟨sanitize_filename_mem title, sanitize_filename_le title, ?_⟩
  intro ws rest hne hws hrest
  cases ws with
  | nil => exact absurd rfl hne
  | cons w ws' =>
    have hw : isSpaceCh w = true := hws w (List.mem_cons_self _ _)
    show collapseWSGo false (w :: ws' ++ rest) = '_' :: collapseWS rest
    simp only [List.cons_append, collapseWSGo, hw, if_true, Bool.false_eq_true, if_false,
      List.append_eq]
    rw [collapseWSGo_spaces ws' rest (fun c hc => hws c (List.mem_cons_of_mem _ hc))]
    rw [collapseWSGo_true_eq_false rest hrest]
    rfl

theorem sanitize_filename_spec_witness :
    sanitize_filename "My file: draft (v2).pdf".data = "My_file_draft_v2pdf".data ∧
    (sanitize_filename "My file: draft (v2).pdf".data).length ≤ 200 ∧
    collapseWS (" \t".data ++ "ab".data) = '_' :: collapseWS "ab".data := by
  refine ⟨by decide, (sanitize_filename_spec "My file: draft (v2).pdf".data).2.1, ?_⟩
  exact (sanitize_filename_spec [].asString.data).2.2 " \t".data "ab".data
    (by decide) (by decide) (by decide)

theorem correlate_length (cleanAbstract : Str → Str) (dir : Str) (topics : List Str)
    (fields : FieldLists) :
    (correlate cleanAbstract dir topics fields).length = topics.length := by
  simp [correlate]

theorem correlate_get (cleanAbstract : Str → Str) (dir : Str) (topics : List Str)
    (fields : FieldLists) (i : Nat) (h : i < topics.length) :
    (correlate cleanAbstract dir topics fields).get
        ⟨i, by simpa [correlate_length] using h⟩ =
      correlateRecord cleanAbstract dir topics fields i := by
  simp [correlate, List.get_eq_getElem]

/-- C1: the Record Correlator emits exactly one record per non-empty topic
fragment, and for every index `i` below the number of topics each field value
is the `i`-th element of that field's list when `i` is in range and the named
default otherwise (the empty string, or `"Original Research"` for the article
type, which line 394 computes alongside the record fields).  `correlate` is a
total function, so no out-of-range failure can occur. -/
theorem correlate_spec (cleanAbstract : Str → Str) (dir : Str) (texts : List Str)
    (fields : FieldLists) :
    (correlate cleanAbstract dir (extractTopics texts) fields).length =
      (extractTopics texts).length ∧
    (∀ i, i < (extractTopics texts).length →
      ∃ r, r = correlateRecord cleanAbstract dir (extractTopics texts) fields i ∧
        r ∈ correlate cleanAbstract dir (extractTopics texts) fields ∧
        r.title = (extractTopics texts).getD i [] ∧
        r.page_number = (if h2 : i < fields.pages.length
          then fields.pages.get ⟨i, h2⟩ else []) ∧
        r.authors = (if h2 : i < fields.authors.length
          then fields.authors.get ⟨i, h2⟩ else []) ∧
        r.abstract = (if h2 : i < fields.abstracts.length
          then cleanAbstract (fields.abstracts.get ⟨i, h2⟩).2 else []) ∧
        articleTypeAt fields i = (if h2 : i < fields.types.length
          then fields.types.get ⟨i, h2⟩ else "Original Research".data) ∧
        downloadLinkAt fields i = (if h2 : i < fields.downloads.length
          then fields.downloads.get ⟨i, h2⟩ else [])) := by
  refine ⟨correlate_length cleanAbstract dir _ fields, ?_⟩
  intro i h
  refine ⟨correlateRecord cleanAbstract dir (extractTopics texts) fields i, rfl, ?_, ?_, ?_, ?_, ?_, ?_, ?_⟩
  · rw [← correlate_get cleanAbstract dir _ fields i h]
    exact List.get_mem _ _ _
  · simp [correlateRecord, topicAt, h]
  · simp only [correlateRecord]
    split
    · rename_i h2
      simp [List.getD, List.getElem?_eq_getElem h2, dif_pos h2, List.get_eq_getElem]
    · rename_i h2
      simp [dif_neg h2]
  · simp only [correlateRecord]
    split
    · rename_i h2
      simp [List.getD, List.getElem?_eq_getElem h2, dif_pos h2, List.get_eq_getElem]
    · rename_i h2
      simp [dif_neg h2]
  · simp only [correlateRecord, abstractTextAt]
    split
    · rename_i h2
      simp [List.getD, List.getElem?_eq_getElem h2, dif_pos h2, List.get_eq_getElem]
    · rename_i h2
      simp [dif_neg h2]
  · simp only [articleTypeAt]
    split
    · rename_i h2
      simp [List.getD, List.getElem?_eq_getElem h2, dif_pos h2, List.get_eq_getElem]
    · rename_i h2
      simp [dif_neg h2]
  · simp only [downloadLinkAt]
    split
    · rename_i h2
      simp [List.getD, List.getElem?_eq_getElem h2, dif_pos h2, List.get_eq_getElem]
    · rename_i h2
      simp [dif_neg h2]

theorem correlate_spec_witness :
    (correlate id "d".data (extractTopics ["T1".data, "".data, "T2".data])
        ⟨["A".data], [], [], [], []⟩).length = 2 ∧
    articleTypeAt ⟨["A".data], [], [], [], []⟩ 1 = "Original Research".data := by
  have h := correlate_spec id "d".data ["T1".data, "".data, "T2".data]
    ⟨["A".data], [], [], [], []⟩
  refine ⟨h.1.trans (by decide), ?_⟩
  rcases h.2 1 (by decide) with ⟨r, -, -, -, -, -, -, hty, -⟩
  rw [hty]
  decide

/-- C3: the resolved extension is determined by the content-type mapping
first; when that yields nothing, by the URL's own extension when it is pdf or
docx; otherwise it defaults to pdf.  The wordprocessingml content type with a
URL ending in `.pdf` resolves to docx (content type wins over URL). -/
theorem resolveFileExt_spec (content_type url : Str) :
    (∀ e, get_file_extension_from_content_type content_type = some e →
      resolveFileExt content_type url = e) ∧
    (get_file_extension_from_content_type content_type = none →
      ∀ e, get_file_extension_from_url url = some e →
        resolveFileExt content_type url = e) ∧
    (get_file_extension_from_content_type content_type = none →
      get_file_extension_from_url url = none →
      resolveFileExt content_type url = "pdf".data) ∧
    (containsSub "application/pdf".data (lowerStr content_type) = true →
      resolveFileExt content_type url = "pdf".data) ∧
    resolveFileExt
        "application/vnd.openxmlformats-officedocument.wordprocessingml.document".data
        "http://x/a.pdf".data = "docx".data := by
  refine ⟨?_, ?_, ?_, ?_, by decide⟩
  · intro e he
    simp [resolveFileExt, he]
  · intro hn e he
    simp [resolveFileExt, hn, he]
  · intro hn hu
    simp [resolveFileExt, hn, hu]
  · intro hc
    have hne : content_type ≠ [] := by
      intro h
      rw [h] at hc
      exact absurd hc (by decide)
    simp [resolveFileExt, get_file_extension_from_content_type, hne, hc]

theorem resolveFileExt_spec_witness :
    resolveFileExt "text/html".data "http://x/paper.docx".data = "docx".data ∧
    resolveFileExt "Application/PDF; charset=utf-8".data "http://x/paper.docx".data =
      "pdf".data :=
  ⟨(resolveFileExt_spec "text/html".data "http://x/paper.docx".data).2.1
      (by decide) "docx".data (by decide),
    (resolveFileExt_spec "Application/PDF; charset=utf-8".data
      "http://x/paper.docx".data).2.2.2.1 (by decide)⟩

/-- C4: any exception inside a download is returned by `download_file` as an
outcome with `success = false` and the error captured, never propagated
(`download_file` is a total function into `DownloadOutcome`); and a failed
outcome leaves the metadata — in particular the owning record's `file_path`,
still its provisional value — untouched. -/
theorem download_failure_spec (url save_path e : Str)
    (metadata : List ArticleRecord) (idx : Nat) (result : DownloadOutcome)
    (hr : result.success = false) :
    download_file url save_path (.error e) =
      { success := false, path := save_path, url := url,
        error := some e, extension := none } ∧
    processOutcome metadata idx result = metadata :=
  ⟨rfl, by simp [processOutcome, hr]⟩

theorem download_failure_spec_witness :
    download_file "http://x/a.pdf".data "d/01-t.pdf".data (.error "timeout".data) =
      { success := false, path := "d/01-t.pdf".data, url := "http://x/a.pdf".data,
        error := some "timeout".data, extension := none } ∧
    processOutcome [] 0
        { success := false, path := [], url := [], error := none, extension := none } = [] :=
  download_failure_spec "http://x/a.pdf".data "d/01-t.pdf".data "timeout".data [] 0
    { success := false, path := [], url := [], error := none, extension := none } rfl

theorem splitChar_ne_nil (c : Char) (l : Str) : splitChar c l ≠ [] := by
  cases l with
  | nil => simp [splitChar]
  | cons x xs =>
    simp only [splitChar]
    split
    · simp
    · split <;> simp

theorem splitChar_not_mem (c : Char) (l : Str) (h : c ∉ l) : splitChar c l = [l] := by
  induction l with
  | nil => rfl
  | cons x xs ih =>
    have hx : ¬ x = c := fun he => h (by rw [he]; exact List.mem_cons_self _ _)
    have hxs : c ∉ xs := fun hm => h (List.mem_cons_of_mem _ hm)
    simp [splitChar, hx, ih hxs]

theorem splitChar_append (c : Char) (a tail : Str) (ha : c ∉ a) :
    splitChar c (a ++ c :: tail) = a :: splitChar c tail := by
  induction a with
  | nil => simp [splitChar]
  | cons x a' ih =>
    have hx : ¬ x = c := fun he => ha (by rw [he]; exact List.mem_cons_self _ _)
    have ha' : c ∉ a' := fun hm => ha (List.mem_cons_of_mem _ hm)
    simp [splitChar, hx, ih ha']

theorem splitChar_dropLast (c : Char) (a b : Str) (hb : c ∉ b) :
    (splitChar c (a ++ c :: b)).dropLast = splitChar c a := by
  induction a with
  | nil => simp [splitChar, splitChar_not_mem c b hb]
  | cons x a' ih =>
    by_cases hx : x = c
    · subst hx
      cases hsp : splitChar x (a' ++ x :: b) with
      | nil => exact absurd hsp (splitChar_ne_nil _ _)
      | cons t ts =>
        rw [hsp] at ih
        have lhs : splitChar x ((x :: a') ++ x :: b) = [] :: t :: ts := by
          simp [splitChar, hsp]
        have rhs : splitChar x (x :: a') = [] :: splitChar x a' := by
          simp [splitChar]
        rw [lhs, rhs, List.dropLast_cons₂, ih]
    · cases hsp : splitChar c (a' ++ c :: b) with
      | nil => exact absurd hsp (splitChar_ne_nil _ _)
      | cons t ts =>
        rw [hsp] at ih
        have lhs : splitChar c ((x :: a') ++ c :: b) = (x :: t) :: ts := by
          simp [splitChar, hx, hsp]
        cases ts with
        | nil =>
          exfalso
          simp only [List.dropLast_single] at ih
          exact splitChar_ne_nil c a' ih.symm
        | cons u us =>
          rw [List.dropLast_cons₂] at ih
          cases hsp' : splitChar c a' with
          | nil => exact absurd hsp' (splitChar_ne_nil _ _)
          | cons t' ts' =>
            rw [hsp'] at ih
            injection ih with h1 h2
            have rhs : splitChar c (x :: a') = (x :: t') :: ts' := by
              simp [splitChar, hx, hsp']
            rw [lhs, rhs, List.dropLast_cons₂, h1, h2]

theorem joinChar_splitChar (c : Char) (l : Str) : joinChar c (splitChar c l) = l := by
  induction l with
  | nil => rfl
  | cons x xs ih =>
    by_cases hx : x = c
    · subst hx
      cases hsp : splitChar x xs with
      | nil => exact absurd hsp (splitChar_ne_nil _ _)
      | cons t ts =>
        rw [hsp] at ih
        have lhs : splitChar x (x :: xs) = [] :: t :: ts := by simp [splitChar, hsp]
        rw [lhs]
        show ([] : Str) ++ x :: joinChar x (t :: ts) = x :: xs
        rw [ih]
        rfl
    · cases hsp : splitChar c xs with
      | nil => exact absurd hsp (splitChar_ne_nil _ _)
      | cons t ts =>
        rw [hsp] at ih
        have lhs : splitChar c (x :: xs) = (x :: t) :: ts := by simp [splitChar, hx, hsp]
        rw [lhs]
        cases ts with
        | nil =>
          show x :: t = x :: xs
          rw [show joinChar c [t] = t from rfl] at ih
          rw [ih]
        | cons u us =>
          show (x :: t) ++ c :: joinChar c (u :: us) = x :: xs
          rw [← ih]
          rfl

/-- C7: an href starting with `http` is used unchanged; an href with a leading
slash resolves to the page URL's scheme+host followed by the href; any other
href resolves to the page URL's directory path (its prefix before the last
slash), a slash, then the href. -/
theorem resolve_download_link_spec (url href : Str) :
    ("http".data.isPrefixOf href = true → resolve_download_link url href = href) ∧
    (∀ proto host tail, '/' ∉ proto → '/' ∉ host →
      url = proto ++ '/' :: '/' :: (host ++ tail) →
      (tail = [] ∨ tail.head? = some '/') →
      "http".data.isPrefixOf href = false → href.head? = some '/' →
      resolve_download_link url href = (proto ++ '/' :: '/' :: host) ++ href) ∧
    (∀ a b, '/' ∉ b → url = a ++ '/' :: b →
      "http".data.isPrefixOf href = false → href.head? ≠ some '/' →
      resolve_download_link url href = a ++ '/' :: href) := by
  refine ⟨?_, ?_, ?_⟩
  · intro h
    simp [resolve_download_link, h]
  · intro proto host tail hp hh hurl htail hhttp hslash
    subst hurl
    have hsplit : splitChar '/' (proto ++ '/' :: '/' :: (host ++ tail)) =
        proto :: [] :: splitChar '/' (host ++ tail) := by
      rw [splitChar_append '/' proto _ hp]
      have h2 : splitChar '/' ('/' :: (host ++ tail)) = [] :: splitChar '/' (host ++ tail) :=
        splitChar_append '/' [] _ (by simp)
      rw [h2]
    have hsplit2 : ∃ rest, splitChar '/' (host ++ tail) = host :: rest := by
      rcases htail with rfl | hhd
      · exact ⟨[], by simpa using splitChar_not_mem '/' host hh⟩
      · cases tail with
        | nil => exact ⟨[], by simpa using splitChar_not_mem '/' host hh⟩
        | cons t ts =>
          cases hhd
          exact ⟨splitChar '/' ts, splitChar_append '/' host ts hh⟩
    rcases hsplit2 with ⟨rest, hrest⟩
    simp only [resolve_download_link, hhttp, Bool.false_eq_true, if_false, hslash, if_pos rfl]
    rw [hsplit, hrest]
    simp only [List.take_succ_cons, List.take_zero, joinChar]
    simp
  · intro a b hb hurl hhttp hslash
    subst hurl
    simp only [resolve_download_link, hhttp, Bool.false_eq_true, if_false, if_neg hslash]
    rw [splitChar_dropLast '/' a b hb, joinChar_splitChar]

theorem resolve_download_link_spec_witness :
    resolve_download_link "http://ex.com/vol1/page.html".data "a.pdf".data =
      "http://ex.com/vol1/a.pdf".data ∧
    resolve_download_link "http://ex.com/vol1/page.html".data "/files/a.pdf".data =
      "http://ex.com/files/a.pdf".data := by
  constructor
  · have h := (resolve_download_link_spec "http://ex.com/vol1/page.html".data
      "a.pdf".data).2.2 "http://ex.com/vol1".data "page.html".data
      (by decide) (by decide) (by decide) (by decide)
    exact h.trans (by decide)
  · have h := (resolve_download_link_spec "http://ex.com/vol1/page.html".data
      "/files/a.pdf".data).2.1 "http:".data "ex.com".data "/vol1/page.html".data
      (by decide) (by decide) (by decide) (Or.inr (by decide)) (by decide) (by decide)
    exact h.trans (by decide)

theorem digitVal_digitChar : ∀ m : Nat, m < 10 → digitVal (Nat.digitChar m) = m := by decide

theorem isDigit_digitChar : ∀ m : Nat, m < 10 → (Nat.digitChar m).isDigit = true := by decide

theorem valD_append (l : Str) (c : Char) : valD (l ++ [c]) = valD l * 10 + digitVal c := by
  simp [valD, List.foldl_append]

theorem valD_decDigitsF : ∀ (f n : Nat), n ≤ f → valD (decDigitsF f n) = n := by
  intro f
  induction f with
  | zero =>
    intro n h
    have hn : n = 0 := Nat.le_zero.mp h
    subst hn
    decide
  | succ f ih =>
    intro n h
    by_cases h10 : n < 10
    · simp only [decDigitsF, if_pos h10]
      show valD [Nat.digitChar n] = n
      have hd := digitVal_digitChar n h10
      simp [valD, hd]
    · simp only [decDigitsF, if_neg h10]
      rw [valD_append]
      have h1 : n / 10 < n := Nat.div_lt_self (by omega) (by norm_num)
      rw [ih _ (by omega)]
      rw [digitVal_digitChar (n % 10) (Nat.mod_lt n (by norm_num))]
      omega

theorem valD_pad2 (n : Nat) : valD (pad2 n) = n := by
  have h0 : ∀ l : Str, valD ('0' :: l) = valD l := by
    intro l
    simp [valD, List.foldl_cons, digitVal]
  unfold pad2
  split
  · rw [h0]
    exact valD_decDigitsF n n (Nat.le_refl n)
  · exact valD_decDigitsF n n (Nat.le_refl n)

theorem decDigitsF_digits : ∀ (f n : Nat) (c : Char), c ∈ decDigitsF f n → c.isDigit = true := by
  intro f
  induction f with
  | zero =>
    intro n c hc
    simp only [decDigitsF, List.mem_singleton] at hc
    subst hc
    exact isDigit_digitChar _ (Nat.mod_lt n (by norm_num))
  | succ f ih =>
    intro n c hc
    simp only [decDigitsF] at hc
    split at hc
    · rename_i h10
      simp only [List.mem_singleton] at hc
      subst hc
      exact isDigit_digitChar n h10
    · rcases List.mem_append.mp hc with h | h
      · exact ih _ c h
      · simp only [List.mem_singleton] at h
        subst h
        exact isDigit_digitChar _ (Nat.mod_lt n (by norm_num))

theorem pad2_digits (n : Nat) (c : Char) (h : c ∈ pad2 n) : c.isDigit = true := by
  unfold pad2 at h
  split at h
  · rcases List.mem_cons.mp h with rfl | h'
    · decide
    · exact decDigitsF_digits n n c h'
  · exact decDigitsF_digits n n c h

theorem decDigitsF_ne_nil (f n : Nat) : decDigitsF f n ≠ [] := by
  cases f with
  | zero => simp [decDigitsF]
  | succ f =>
    simp only [decDigitsF]
    split
    · simp
    · simp

theorem pad2_ne_nil (n : Nat) : pad2 n ≠ [] := by
  unfold pad2
  split
  · simp
  · exact decDigitsF_ne_nil n n

theorem takeWhile_append_of_all (p : Char → Bool) (a rest : Str)
    (ha : ∀ c ∈ a, p c = true) :
    (a ++ rest).takeWhile p = a ++ rest.takeWhile p := by
  induction a with
  | nil => simp
  | cons x a' ih =>
    have hx : p x = true := ha x (List.mem_cons_self _ _)
    simp only [List.cons_append, List.takeWhile_cons, hx, if_true]
    rw [ih (fun c hc => ha c (List.mem_cons_of_mem _ hc))]

theorem takeWhile_digits_prefix (n : Nat) (r : Str) :
    (pad2 n ++ '-' :: r).takeWhile Char.isDigit = pad2 n := by
  rw [takeWhile_append_of_all Char.isDigit (pad2 n) _ (pad2_digits n)]
  simp [List.takeWhile_cons]

theorem pad2_prefix_inj (m n : Nat) (r₁ r₂ : Str)
    (h : pad2 m ++ '-' :: r₁ = pad2 n ++ '-' :: r₂) : m = n := by
  have h1 := takeWhile_digits_prefix m r₁
  rw [h, takeWhile_digits_prefix n r₂] at h1
  have := valD_pad2 m
  rw [← h1, valD_pad2] at this
  omega

theorem joinPath_eq (dir F : Str) (hF : F.head? ≠ some '/') :
    joinPath dir F = dirPrefix dir ++ F := by
  unfold joinPath dirPrefix
  rw [if_neg hF]
  by_cases h1 : dir = []
  · simp [h1]
  · by_cases h2 : dir.getLast? = some '/'
    · simp [h1, h2]
    · simp [h1, h2]

theorem pad2_append_head (n : Nat) (X : Str) : ∃ c, (pad2 n ++ X).head? = some c ∧
    c.isDigit = true := by
  cases hp : pad2 n with
  | nil => exact absurd hp (pad2_ne_nil n)
  | cons c cs =>
    refine ⟨c, by simp, pad2_digits n c ?_⟩
    rw [hp]
    exact List.mem_cons_self _ _

theorem provisionalPath_eq (dir : Str) (i : Nat) (topic : Str) :
    provisionalPath dir i topic =
      dirPrefix dir ++ (pad2 (i + 1) ++ '-' :: (sanitize_filename topic ++ ".pdf".data)) := by
  unfold provisionalPath provisionalFilename
  rw [joinPath_eq]
  rcases pad2_append_head (i + 1) ('-' :: (sanitize_filename topic ++ ".pdf".data)) with
    ⟨c, hc, hd⟩
  rw [hc]
  intro he
  injection he with he
  subst he
  exact absurd hd (by decide)

theorem splitext_shape (J B E : Str) (hB : '/' ∉ B) (hBd : ∃ c ∈ B, c ≠ '.')
    (hE1 : '.' ∉ E) (hE2 : '/' ∉ E) :
    splitext (J ++ B ++ '.' :: E) = (J ++ B, '.' :: E) := by
  have hrev : (J ++ B ++ '.' :: E).reverse = E.reverse ++ '.' :: (B.reverse ++ J.reverse) := by
    simp
  have hEall : ∀ c ∈ E.reverse, (c != '.' && c != '/') = true := by
    intro c hc
    rw [List.mem_reverse] at hc
    have h1 : c ≠ '.' := fun he => hE1 (he ▸ hc)
    have h2 : c ≠ '/' := fun he => hE2 (he ▸ hc)
    simp [h1, h2]
  have htw : (E.reverse ++ '.' :: (B.reverse ++ J.reverse)).takeWhile
      (fun c => c != '.' && c != '/') = E.reverse := by
    rw [takeWhile_append_of_all _ _ _ hEall]
    simp [List.takeWhile_cons]
  have hdrop : (E.reverse ++ '.' :: (B.reverse ++ J.reverse)).drop E.reverse.length =
      '.' :: (B.reverse ++ J.reverse) := List.drop_left _ _
  have hBall : ∀ c ∈ B.reverse, (c != '/') = true := by
    intro c hc
    rw [List.mem_reverse] at hc
    have h2 : c ≠ '/' := fun he => hB (he ▸ hc)
    simp [h2]
  have hcond : (((B.reverse ++ J.reverse).takeWhile (fun c => c != '/')).any
      (fun c => c != '.')) = true := by
    rw [takeWhile_append_of_all _ _ _ hBall]
    rcases hBd with ⟨c, hc, hcd⟩
    refine List.any_eq_true.mpr ⟨c, List.mem_append_left _ (List.mem_reverse.mpr hc), ?_⟩
    simp [hcd]
  unfold splitext
  simp only [hrev, htw, hdrop, hcond, if_true]
  simp

theorem splitext_provisional (dir : Str) (i : Nat) (topic : Str) :
    splitext (provisionalPath dir i topic) =
      (dirPrefix dir ++ (pad2 (i + 1) ++ '-' :: sanitize_filename topic), ".pdf".data) := by
  have hB : '/' ∉ pad2 (i + 1) ++ '-' :: sanitize_filename topic := by
    intro hm
    rcases List.mem_append.mp hm with h | h
    · exact absurd (pad2_digits _ _ h) (by decide)
    · rcases List.mem_cons.mp h with he | h'
      · exact absurd he.symm (by decide)
      · have := (sanitize_filename_mem topic '/' h').1
        exact absurd this (by decide)
  have hBd : ∃ c ∈ pad2 (i + 1) ++ '-' :: sanitize_filename topic, c ≠ '.' :=
    ⟨'-', List.mem_append_right _ (List.mem_cons_self _ _), by decide⟩
  have h := splitext_shape (dirPrefix dir) (pad2 (i + 1) ++ '-' :: sanitize_filename topic)
    "pdf".data hB hBd (by decide) (by decide)
  have hshape : provisionalPath dir i topic =
      (dirPrefix dir ++ (pad2 (i + 1) ++ '-' :: sanitize_filename topic)) ++
        '.' :: "pdf".data := by
    rw [provisionalPath_eq]
    simp
  rw [hshape, h]

theorem updateExtension_stem (dir : Str) (i : Nat) (topic : Str) (ext : Str)
    (hd : '.' ∉ ext) (hs : '/' ∉ ext) :
    updateExtension (provisionalPath dir i topic) ext =
      (dirPrefix dir ++ (pad2 (i + 1) ++ '-' :: sanitize_filename topic)) ++ '.' :: ext := by
  unfold updateExtension
  rw [splitext_provisional]
  by_cases hc : lowerStr ".pdf".data = '.' :: ext
  · rw [if_pos hc]
    have hext : ext = "pdf".data := by
      have hlow : lowerStr ".pdf".data = ".pdf".data := by decide
      rw [hlow] at hc
      injection hc with h1 h2
      exact h2.symm
    subst hext
    rw [provisionalPath_eq]
    simp
  · rw [if_neg hc]

theorem finalPathAt_shape (dir topic : Str) (i : Nat) (ef : Option Str)
    (hef : ef = none ∨ ef = some "pdf".data ∨ ef = some "docx".data) :
    ∃ r, finalPathAt dir topic i ef = dirPrefix dir ++ (pad2 (i + 1) ++ '-' :: r) := by
  rcases hef with rfl | rfl | rfl
  · refine ⟨sanitize_filename topic ++ ".pdf".data, ?_⟩
    exact provisionalPath_eq dir i topic
  · refine ⟨sanitize_filename topic ++ '.' :: "pdf".data, ?_⟩
    show updateExtension (provisionalPath dir i topic) "pdf".data = _
    rw [updateExtension_stem dir i topic "pdf".data (by decide) (by decide)]
    simp
  · refine ⟨sanitize_filename topic ++ '.' :: "docx".data, ?_⟩
    show updateExtension (provisionalPath dir i topic) "docx".data = _
    rw [updateExtension_stem dir i topic "docx".data (by decide) (by decide)]
    simp

theorem get_file_extension_from_url_total (url : Str) (e : Str)
    (h : get_file_extension_from_url url = some e) :
    e = "pdf".data ∨ e = "docx".data := by
  unfold get_file_extension_from_url at h
  simp only at h
  split at h
  · split at h
    · rename_i hor
      injection h with h
      subst h
      exact hor
    · exact absurd h (by simp)
  · exact absurd h (by simp)

theorem get_file_extension_from_content_type_total (ct : Str) (e : Str)
    (h : get_file_extension_from_content_type ct = some e) :
    e = "pdf".data ∨ e = "docx".data := by
  unfold get_file_extension_from_content_type at h
  split at h
  · exact absurd h (by simp)
  · simp only at h
    split at h
    · injection h with h
      exact Or.inl h.symm
    · split at h
      · injection h with h
        exact Or.inr h.symm
      · split at h
        · injection h with h
          exact Or.inr h.symm
        · exact absurd h (by simp)

/-- Resolution always yields pdf or docx, so every rewritten save path ends in
one of the two extensions. -/
theorem resolveFileExt_total (ct url : Str) :
    resolveFileExt ct url = "pdf".data ∨ resolveFileExt ct url = "docx".data := by
  unfold resolveFileExt
  cases hct : get_file_extension_from_content_type ct with
  | some e => exact get_file_extension_from_content_type_total ct e hct
  | none =>
    cases hu : get_file_extension_from_url url with
    | some e => exact get_file_extension_from_url_total url e hu
    | none => exact Or.inl rfl

/-- C6: the batch's file paths are pairwise distinct — each is derived from
the record's 1-based, zero-padded sequence index followed by the sanitized
title — and they remain pairwise distinct after the Orchestrator rewrites any
subset of them to the extension resolved from that download's content type
and URL. -/
theorem batch_file_paths_distinct (dir : Str) (topics : List Str)
    (dl : Nat → Option (Str × Str)) :
    ((List.range topics.length).map
      (fun i => finalPathFromDownload dir (topics.getD i []) i (dl i))).Pairwise (· ≠ ·) := by
  rw [List.pairwise_map]
  refine (List.pairwise_lt_range topics.length).imp ?_
  intro i j hij heq
  have hshape : ∀ (k : Nat) (topic : Str) (d : Option (Str × Str)), ∃ r,
      finalPathFromDownload dir topic k d = dirPrefix dir ++ (pad2 (k + 1) ++ '-' :: r) := by
    intro k topic d
    cases d with
    | none => exact finalPathAt_shape dir topic k none (Or.inl rfl)
    | some p =>
      have hres := resolveFileExt_total p.1 p.2
      have heq2 : finalPathFromDownload dir topic k (some p) =
          finalPathAt dir topic k (some (resolveFileExt p.1 p.2)) := by
        cases p with
        | mk ct u => rfl
      rw [heq2]
      exact finalPathAt_shape dir topic k (some (resolveFileExt p.1 p.2))
        (Or.inr (hres.imp (fun h => by rw [h]) (fun h => by rw [h])))
  rcases hshape i (topics.getD i []) (dl i) with ⟨r₁, h₁⟩
  rcases hshape j (topics.getD j []) (dl j) with ⟨r₂, h₂⟩
  rw [h₁, h₂] at heq
  have hdrop := congrArg (List.drop (dirPrefix dir).length) heq
  rw [List.drop_left, List.drop_left] at hdrop
  have := pad2_prefix_inj (i + 1) (j + 1) _ _ hdrop
  omega

theorem batch_file_paths_distinct_witness :
    ((List.range 2).map (fun i => finalPathFromDownload "d".data
      ((["A".data, "B".data]).getD i []) i
      (if i = 0 then
        some ("application/vnd.openxmlformats-officedocument.wordprocessingml.document".data,
          "http://x/a.pdf".data)
       else none))).Pairwise (· ≠ ·) ∧
    (List.range 2).map (fun i => finalPathFromDownload "d".data
      ((["A".data, "B".data]).getD i []) i
      (if i = 0 then
        some ("application/vnd.openxmlformats-officedocument.wordprocessingml.document".data,
          "http://x/a.pdf".data)
       else none)) =
      ["d/01-A.docx".data, "d/02-B.pdf".data] :=
  ⟨batch_file_paths_distinct "d".data ["A".data, "B".data] _, by decide⟩

/-- C10: for every successful download with a program-generated provisional
save path, the final path differs from the provisional one at most in its
extension: the `splitext` stem (directory plus index prefix plus sanitized
title) is unchanged, the result is exactly that stem with the resolved
extension appended, and when the provisional extension already equals the
resolved one case-insensitively the path is returned exactly as given. -/
theorem updateExtension_frame (dir topic : Str) (i : Nat) (ext : Str)
    (hext : ext = "pdf".data ∨ ext = "docx".data) :
    (splitext (updateExtension (provisionalPath dir i topic) ext)).1 =
      (splitext (provisionalPath dir i topic)).1 ∧
    updateExtension (provisionalPath dir i topic) ext =
      (splitext (provisionalPath dir i topic)).1 ++ '.' :: ext ∧
    (lowerStr (splitext (provisionalPath dir i topic)).2 = '.' :: ext →
      updateExtension (provisionalPath dir i topic) ext = provisionalPath dir i topic) := by
  have hd : '.' ∉ ext := by rcases hext with rfl | rfl <;> decide
  have hs : '/' ∉ ext := by rcases hext with rfl | rfl <;> decide
  have hstem := updateExtension_stem dir i topic ext hd hs
  refine ⟨?_, ?_, ?_⟩
  · rw [hstem, splitext_provisional]
    have hB : '/' ∉ pad2 (i + 1) ++ '-' :: sanitize_filename topic := by
      intro hm
      rcases List.mem_append.mp hm with h | h
      · exact absurd (pad2_digits _ _ h) (by decide)
      · rcases List.mem_cons.mp h with he | h'
        · exact absurd he.symm (by decide)
        · exact absurd (sanitize_filename_mem topic '/' h').1 (by decide)
    have hBd : ∃ c ∈ pad2 (i + 1) ++ '-' :: sanitize_filename topic, c ≠ '.' :=
      ⟨'-', List.mem_append_right _ (List.mem_cons_self _ _), by decide⟩
    rw [splitext_shape (dirPrefix dir) _ ext hB hBd hd hs]
  · rw [hstem, splitext_provisional]
  · intro hc
    unfold updateExtension
    rw [if_pos hc]

theorem updateExtension_frame_witness :
    updateExtension (provisionalPath "d".data 0 "T".data) "docx".data =
      (splitext (provisionalPath "d".data 0 "T".data)).1 ++ '.' :: "docx".data ∧
    updateExtension (provisionalPath "d".data 0 "T".data) "pdf".data =
      provisionalPath "d".data 0 "T".data ∧
    updateExtension "d/01-T.pdf".data "docx".data = "d/01-T.docx".data := by
  refine ⟨(updateExtension_frame "d".data "T".data 0 "docx".data (Or.inr rfl)).2.1, ?_, ?_⟩
  · exact (updateExtension_frame "d".data "T".data 0 "pdf".data (Or.inl rfl)).2.2 (by decide)
  · decide

/-- C9: starting from any batch of `n` submitted download tasks and an idle
pool bounded by `max_workers` (8), every reachable pool configuration has at
most `max_workers` downloads in flight. -/
theorem pool_inFlight_le (n : Nat) (s : PoolState)
    (h : PoolReach max_workers ⟨n, 0, 0⟩ s) : s.inFlight ≤ max_workers := by
  induction h with
  | refl => simp [max_workers]
  | step hreach hstep ih =>
    cases hstep with
    | start p f c hf => exact hf
    | finish p f c => exact Nat.le_trans (Nat.le_succ f) ih

theorem pool_inFlight_le_witness :
    (PoolState.mk 18 2 0).inFlight ≤ max_workers :=
  pool_inFlight_le 20 ⟨18, 2, 0⟩
    (PoolReach.step
      (PoolReach.step PoolReach.refl (PoolStep.start 19 0 0 (by decide)))
      (PoolStep.start 18 1 0 (by decide)))

theorem firstOccurrenceDedup_congr (es : List Str) (seen₁ seen₂ : List Str)
    (h : ∀ a, a ∈ seen₁ ↔ a ∈ seen₂) :
    firstOccurrenceDedup seen₁ es = firstOccurrenceDedup seen₂ es := by
  induction es generalizing seen₁ seen₂ with
  | nil => rfl
  | cons x xs ih =>
    simp only [firstOccurrenceDedup]
    by_cases hx : lowerStr x ∈ seen₁
    · rw [if_pos hx, if_pos ((h _).mp hx)]
      exact ih seen₁ seen₂ h
    · rw [if_neg hx, if_neg (fun hc => hx ((h _).mpr hc))]
      congr 1
      refine ih _ _ ?_
      intro a
      simp [h a]

theorem uniqueEmailsLoop_eq (es : List Str) (acc : List Str) :
    uniqueEmailsLoop acc es = acc ++ firstOccurrenceDedup (acc.map lowerStr) es := by
  induction es generalizing acc with
  | nil => simp [uniqueEmailsLoop, firstOccurrenceDedup]
  | cons x xs ih =>
    simp only [uniqueEmailsLoop, firstOccurrenceDedup]
    by_cases hx : lowerStr x ∈ acc.map lowerStr
    · rw [if_pos hx, if_pos hx]
      exact ih acc
    · rw [if_neg hx, if_neg hx]
      rw [ih (acc ++ [x])]
      have hcongr : firstOccurrenceDedup ((acc ++ [x]).map lowerStr) xs =
          firstOccurrenceDedup (lowerStr x :: acc.map lowerStr) xs := by
        refine firstOccurrenceDedup_congr xs _ _ ?_
        intro a
        simp [List.mem_append, or_comm]
      rw [hcongr]
      simp

theorem firstOccurrenceDedup_not_seen (es : List Str) (seen : List Str) (x : Str)
    (h : x ∈ firstOccurrenceDedup seen es) : lowerStr x ∉ seen := by
  induction es generalizing seen with
  | nil => simp [firstOccurrenceDedup] at h
  | cons y ys ih =>
    simp only [firstOccurrenceDedup] at h
    by_cases hy : lowerStr y ∈ seen
    · rw [if_pos hy] at h
      exact ih seen h
    · rw [if_neg hy] at h
      rcases List.mem_cons.mp h with rfl | h'
      · exact hy
      · have := ih _ h'
        intro hc
        exact this (List.mem_cons_of_mem _ hc)

theorem firstOccurrenceDedup_pairwise (es : List Str) (seen : List Str) :
    (firstOccurrenceDedup seen es).Pairwise (fun a b => lowerStr a ≠ lowerStr b) := by
  induction es generalizing seen with
  | nil => exact List.Pairwise.nil
  | cons y ys ih =>
    simp only [firstOccurrenceDedup]
    by_cases hy : lowerStr y ∈ seen
    · rw [if_pos hy]
      exact ih seen
    · rw [if_neg hy]
      refine List.Pairwise.cons ?_ (ih _)
      intro b hb heq
      have := firstOccurrenceDedup_not_seen ys _ b hb
      exact this (heq ▸ List.mem_cons_self _ _)

theorem firstOccurrenceDedup_sublist (es : List Str) (seen : List Str) :
    (firstOccurrenceDedup seen es).Sublist es := by
  induction es generalizing seen with
  | nil => exact List.Sublist.refl []
  | cons y ys ih =>
    simp only [firstOccurrenceDedup]
    by_cases hy : lowerStr y ∈ seen
    · rw [if_pos hy]
      exact (ih seen).cons y
    · rw [if_neg hy]
      exact (ih _).cons₂ y

/-- C8: the email extraction returns exactly the regex matches de-duplicated
case-insensitively — each kept match is the first occurrence of its
lower-cased form, in scan order and with its original casing — so no two
returned emails are equal ignoring case, and the result is a sublist of the
match list (first-seen order preserved). -/
theorem extract_emails_spec (text : Str) :
    extract_emails_from_text text = firstOccurrenceDedup [] (findEmails text) ∧
    (extract_emails_from_text text).Pairwise (fun a b => lowerStr a ≠ lowerStr b) ∧
    (extract_emails_from_text text).Sublist (findEmails text) := by
  have he : extract_emails_from_text text = firstOccurrenceDedup [] (findEmails text) := by
    unfold extract_emails_from_text
    rw [uniqueEmailsLoop_eq]
    simp
  refine ⟨he, ?_, ?_⟩
  · rw [he]
    exact firstOccurrenceDedup_pairwise _ _
  · rw [he]
    exact firstOccurrenceDedup_sublist _ _

theorem extract_emails_spec_witness :
    extract_emails_from_text "Contact A.Smith@Ex.COM or a.smith@ex.com or b@x.org now".data =
      ["A.Smith@Ex.COM".data, "b@x.org".data] ∧
    firstOccurrenceDedup []
        (findEmails "Contact A.Smith@Ex.COM or a.smith@ex.com or b@x.org now".data) =
      ["A.Smith@Ex.COM".data, "b@x.org".data] := by
  constructor
  · decide
  · rw [← (extract_emails_spec
      "Contact A.Smith@Ex.COM or a.smith@ex.com or b@x.org now".data).1]
    decide

/-- C5 counterexample: on the claimed input the extraction returns
`["soil", "nitrogen", "ph"]`, not `["soil", "nitrogen", "pH"]` — the captured
block comes from the lower-cased copy of the text (line 191), so the original
casing of `pH` is not preserved. -/
theorem extract_keywords_case_counterexample :
    extract_keywords_from_text
        "Keywords: soil, nitrogen, pH\n\nAbstract: This study examines soil.".data =
      ["soil".data, "nitrogen".data, "ph".data] ∧
    ["soil".data, "nitrogen".data, "ph".data] ≠
      ["soil".data, "nitrogen".data, "pH".data] :=
  ⟨by decide, by decide⟩

/-- C5 amended: for the input text containing the line
`Keywords: soil, nitrogen, pH` followed by a blank line and an abstract
section, the keyword extraction returns the captured block split on commas,
trimmed, empties dropped — with every keyword folded to lower case (the
capture is taken from the lower-cased text), hence `["soil", "nitrogen",
"ph"]`. -/
theorem extract_keywords_concrete :
    extract_keywords_from_text
        "Keywords: soil, nitrogen, pH\n\nAbstract: This study examines soil.".data =
      ["soil".data, "nitrogen".data, "ph".data] := by
  decide
